import Mathlib

/-!
Verification of the meta-scheduling simulator (`src/main.py`).

Modelling conventions:
* Python integers are modelled as `Int`; fields that start out as Python
  `None` are `Option`s.
* The floating-point policy weights `alpha` and `beta` are modelled as exact
  rationals (`ℚ`).
* Python mutates `Task` and `Node` objects in place through shared references;
  here state is passed explicitly.  A node's position in the node list plays
  the role of its object identity, and the task ledger (`tasks_queue`) is
  reconciled with the scheduler's output by `task_id` (task ids are unique in
  the simulation, so this matches the aliasing of the Python objects).
-/

namespace MetaSched

/-- `Task` from `src/main.py`: id, resource requirement, deadline, processing
time, and the three assignment fields that start out as `None`. -/
structure Task where
  task_id : Nat
  required : Int
  deadline : Int
  processing_time : Int
  assigned_node : Option Nat
  start_time : Option Int
  end_time : Option Int
deriving DecidableEq

/-- `Node` from `src/main.py`: id, fixed capacity, current load, and the list
of tasks currently scheduled on the node. -/
structure Node where
  node_id : Nat
  capacity : Int
  current_load : Int
  schedule : List Task
deriving DecidableEq

/-- `Node.available_capacity`: `capacity - current_load`. -/
def Node.available_capacity (nd : Node) : Int :=
  nd.capacity - nd.current_load

/-- Stable insertion (used to model Python's stable `sort`/`sorted`): `x` is
placed before the first element `y` with `le x y`. -/
def insertLe {α : Type} (le : α → α → Bool) (x : α) : List α → List α
  | [] => [x]
  | y :: ys => if le x y then x :: y :: ys else y :: insertLe le x ys

/-- Stable insertion sort, modelling Python's `sorted`.  With
`le a b := key a ≤ key b` this is the stable ascending sort by `key`; with
`le a b := key b ≤ key a` it is the stable descending sort
(`reverse=True`). -/
def sortedBy {α : Type} (le : α → α → Bool) : List α → List α
  | [] => []
  | x :: xs => insertLe le x (sortedBy le xs)

/-- The sort key of `sorted(tasks, key=lambda t: t.deadline)`. -/
def taskLe (t1 t2 : Task) : Bool :=
  decide (t1.deadline ≤ t2.deadline)

/-- The heuristic score `alpha * n.available_capacity() - beta * n.current_load`. -/
def nodeScore (alpha beta : ℚ) (nd : Node) : ℚ :=
  alpha * (nd.available_capacity : ℚ) - beta * (nd.current_load : ℚ)

/-- Comparison used for `candidate_nodes.sort(key=..., reverse=True)` on
index-node pairs (the index records which entry of the node list the
candidate is, i.e. Python object identity). -/
def nodeDescLe (alpha beta : ℚ) (p q : Nat × Node) : Bool :=
  decide (nodeScore alpha beta q.2 ≤ nodeScore alpha beta p.2)

/-- `candidate_nodes = [node for node in nodes if node.available_capacity() >= task.required]`,
keeping each node's index in `nodes`. -/
def candidate_nodes (task : Task) (nds : List Node) : List (Nat × Node) :=
  nds.enum.filter (fun p => decide (task.required ≤ p.2.available_capacity))

/-- `candidate_nodes.sort(key=..., reverse=True); chosen = candidate_nodes[0]`:
the head of the stable descending sort by score. -/
def chooseCand (alpha beta : ℚ) (cands : List (Nat × Node)) : Option (Nat × Node) :=
  (sortedBy (nodeDescLe alpha beta) cands).head?

/-- The three assignment lines of `schedule_tasks`:
`task.assigned_node = chosen.node_id; task.start_time = current_time;
task.end_time = current_time + task.processing_time`. -/
def assignTask (task : Task) (current_time : Int) (nid : Nat) : Task :=
  { task with
      assigned_node := some nid
      start_time := some current_time
      end_time := some (current_time + task.processing_time) }

/-- One iteration of the `for task in tasks_sorted` loop of `schedule_tasks`:
the accumulator carries the tasks processed so far (with their post-call
values) and the current node list. -/
def sched_step (alpha beta : ℚ) (current_time : Int)
    (acc : List Task × List Node) (task : Task) : List Task × List Node :=
  match chooseCand alpha beta (candidate_nodes task acc.2) with
  | none => (acc.1 ++ [task], acc.2)
  | some (i, chosen) =>
      let task2 := assignTask task current_time chosen.node_id
      (acc.1 ++ [task2],
       acc.2.set i
         { chosen with
             schedule := chosen.schedule ++ [task2]
             current_load := chosen.current_load + task.required })

/-- `schedule_tasks(tasks, nodes, current_time, meta_params)`.  The returned
task list holds the post-call value of every input task, in deadline-sorted
order (Python returns the same mutated objects in input order; the driver
reconciles by `task_id`, see `mergeScheduled`). -/
def schedule_tasks (tasks : List Task) (nodes : List Node)
    (current_time : Int) (alpha beta : ℚ) : List Task × List Node :=
  (sortedBy taskLe tasks).foldl (sched_step alpha beta current_time) ([], nodes)

/-- The test `task.end_time <= current_time` of `update_nodes`.  (Tasks in a
schedule always have `end_time` set; an unset `end_time` would raise a
`TypeError` in Python and is mapped to `false` here.) -/
def taskFinished (task : Task) (current_time : Int) : Bool :=
  match task.end_time with
  | some e => decide (e ≤ current_time)
  | none => false

/-- The per-node body of `update_nodes`: collect the finished tasks, then
remove each from the schedule and subtract its `required` from the load. -/
def update_node (node : Node) (current_time : Int) : Node :=
  let finished := node.schedule.filter (fun task => taskFinished task current_time)
  finished.foldl
    (fun nd task =>
      { nd with
          schedule := nd.schedule.erase task
          current_load := nd.current_load - task.required })
    node

/-- `update_nodes(nodes, current_time)`. -/
def update_nodes (nodes : List Node) (current_time : Int) : List Node :=
  nodes.map (fun node => update_node node current_time)

/-- The driver state of `simulate_scheduling`: the task ledger `tasks_queue`,
the node list, the meta parameters and the current time. -/
structure SimState where
  tasks_queue : List Task
  nodes : List Node
  alpha : ℚ
  beta : ℚ
  current_time : Int

/-- `pending_tasks = [task for task in tasks_queue if task.start_time is None and task.deadline >= current_time]`. -/
def pendingOf (tasks : List Task) (current_time : Int) : List Task :=
  tasks.filter (fun task =>
    task.start_time == none && decide (task.deadline ≥ current_time))

/-- `np.mean([node.current_load for node in nodes])`. -/
def avg_load (nodes : List Node) : ℚ :=
  (nodes.map (fun nd => (nd.current_load : ℚ))).sum / (nodes.length : ℚ)

/-- `meta_params['beta'] = 0.5 + 0.1 * (avg_load / 50)`. -/
def betaUpdate (nodes : List Node) : ℚ :=
  0.5 + 0.1 * (avg_load nodes / 50)

/-- Reconciles the ledger with the scheduler's output: in Python the
scheduler mutates the pending tasks in place and these alias the entries of
`tasks_queue`, so each ledger entry is replaced by the scheduler's version of
the task with the same `task_id` (ids are unique in the simulation). -/
def mergeScheduled (tasks scheduled : List Task) : List Task :=
  tasks.map (fun task =>
    match scheduled.find? (fun t2 => t2.task_id == task.task_id) with
    | some t2 => t2
    | none => task)

/-- One iteration of the `while current_time < simulation_time` loop:
release finished tasks, select the pending tasks, schedule them (if any),
update `beta` from the average load, advance time. -/
def simStep (s : SimState) : SimState :=
  let nodes1 := update_nodes s.nodes s.current_time
  let pending_tasks := pendingOf s.tasks_queue s.current_time
  let res :=
    if pending_tasks.isEmpty then (pending_tasks, nodes1)
    else schedule_tasks pending_tasks nodes1 s.current_time s.alpha s.beta
  { tasks_queue := mergeScheduled s.tasks_queue res.1
    nodes := res.2
    alpha := s.alpha
    beta := betaUpdate res.2
    current_time := s.current_time + 1 }

/-- The initial driver state: `current_time = 0`,
`meta_params = {'alpha': 1.0, 'beta': 0.5}`, with the generated nodes and
tasks as parameters. -/
def initState (nodes : List Node) (tasks : List Task) : SimState :=
  { tasks_queue := tasks
    nodes := nodes
    alpha := 1.0
    beta := 0.5
    current_time := 0 }

/-- `runSim s n` is the state after `n` iterations of the driver loop. -/
def runSim (s : SimState) : Nat → SimState
  | 0 => s
  | n + 1 => simStep (runSim s n)

/-- The spec's node invariant: `current_load == sum(t.required for t in
schedule)` and `current_load <= capacity`. -/
def NodeInv (nd : Node) : Prop :=
  nd.current_load = (nd.schedule.map Task.required).sum ∧
  nd.current_load ≤ nd.capacity

/-- `NodeInv` strengthened with the fact (true of all generated tasks) that
every scheduled task has a nonnegative requirement. -/
def NodeOk (nd : Node) : Prop :=
  NodeInv nd ∧ ∀ tk ∈ nd.schedule, 0 ≤ tk.required

/-- The spec's task invariant: `assigned_node`, `start_time` and `end_time`
are all unset, or all set with `end_time = start_time + processing_time`. -/
def TaskConsistent (tk : Task) : Prop :=
  (tk.assigned_node = none ∧ tk.start_time = none ∧ tk.end_time = none) ∨
  (∃ nid v, tk.assigned_node = some nid ∧ tk.start_time = some v ∧
    tk.end_time = some (v + tk.processing_time))

/-- If the task has been given a start time, that start time is at most its
deadline. -/
def StartOk (tk : Task) : Prop :=
  ∀ v, tk.start_time = some v → v ≤ tk.deadline

/-- All tasks currently sitting in some node's schedule. -/
def allScheduled (nodes : List Node) : List Task :=
  (nodes.map Node.schedule).flatten

/-- What the random generation in `simulate_scheduling` guarantees about the
initial nodes and tasks: fresh nodes (zero load, empty schedule, nonnegative
capacity), fresh tasks (nonnegative requirement, all assignment fields
unset), and distinct task ids.  The generator draws capacities from
`[50,100]` and requirements from `[10,30]`; only the consequences used by the
invariants are recorded, so that the spec's explicit scenarios (e.g. a node
of capacity 10) are covered as well. -/
def InitOK (nodes : List Node) (tasks : List Task) : Prop :=
  (∀ nd ∈ nodes, nd.current_load = 0 ∧ nd.schedule = [] ∧ 0 ≤ nd.capacity) ∧
  (∀ tk ∈ tasks, 0 ≤ tk.required ∧ tk.assigned_node = none ∧
    tk.start_time = none ∧ tk.end_time = none) ∧
  (tasks.map Task.task_id).Nodup

instance (nodes : List Node) (tasks : List Task) : Decidable (InitOK nodes tasks) := by
  unfold InitOK
  infer_instance

/-- The simulation invariant tying the ledger and the node schedules
together. -/
def SimInv (s : SimState) : Prop :=
  (s.tasks_queue.map Task.task_id).Nodup ∧
  (∀ tk ∈ s.tasks_queue, 0 ≤ tk.required ∧ TaskConsistent tk ∧ StartOk tk) ∧
  (∀ nd ∈ s.nodes, NodeOk nd) ∧
  (∀ tk ∈ allScheduled s.nodes, tk ∈ s.tasks_queue ∧ tk.start_time ≠ none) ∧
  ((allScheduled s.nodes).map Task.task_id).Nodup

/-- Modelled from the spec (§4.3, step 2b): "Select the node with the maximum
score; ties broken by selecting the first such node in the candidate list's
current order".  Returns the first element attaining the maximum of `f`. -/
def firstMaxBy {α : Type} (f : α → ℚ) : List α → Option α
  | [] => none
  | x :: xs =>
      match firstMaxBy f xs with
      | none => some x
      | some y => if f x < f y then some y else some x

/-- `sched_step` with the candidate selection re-expressed following the
spec's words (`firstMaxBy` instead of stable-descending-sort-then-head). -/
def sched_step_spec (alpha beta : ℚ) (current_time : Int)
    (acc : List Task × List Node) (task : Task) : List Task × List Node :=
  match firstMaxBy (fun p => nodeScore alpha beta p.2) (candidate_nodes task acc.2) with
  | none => (acc.1 ++ [task], acc.2)
  | some (i, chosen) =>
      let task2 := assignTask task current_time chosen.node_id
      (acc.1 ++ [task2],
       acc.2.set i
         { chosen with
             schedule := chosen.schedule ++ [task2]
             current_load := chosen.current_load + task.required })

/-- The scheduler as described by the spec (§4.3): stable ascending sort by
deadline, then for each task in order assign it to the first
maximum-score candidate node, skipping tasks with no candidate. -/
def schedule_tasks_spec (tasks : List Task) (nodes : List Node)
    (current_time : Int) (alpha beta : ℚ) : List Task × List Node :=
  (sortedBy taskLe tasks).foldl (sched_step_spec alpha beta current_time) ([], nodes)

/-- The relation between a task given to the scheduler and its post-call
value: either untouched, or assigned at the call's `current_time` to some
node — in which case some node of the call had enough capacity for it. -/
def AssignedFrom (current_time : Int) (caps : List Int) (tk tk2 : Task) : Prop :=
  tk2 = tk ∨
  ∃ nid, tk2 = assignTask tk current_time nid ∧ ∃ c ∈ caps, tk.required ≤ c

/-- Concrete scenario node: one node of capacity 50. -/
def demoNode : Node :=
  { node_id := 0, capacity := 50, current_load := 0, schedule := [] }

/-- Concrete scenario task A: requirement 30, deadline 5, duration 5. -/
def demoA : Task :=
  { task_id := 0, required := 30, deadline := 5, processing_time := 5,
    assigned_node := none, start_time := none, end_time := none }

/-- Concrete scenario task B: requirement 30, deadline 5, duration 5.  B only
fits once A is released, which happens exactly at `current_time = 5 = B.deadline`. -/
def demoB : Task :=
  { task_id := 1, required := 30, deadline := 5, processing_time := 5,
    assigned_node := none, start_time := none, end_time := none }

/-- Initial state of the concrete scenario. -/
def demoInit : SimState := initState [demoNode] [demoA, demoB]

/-- Post-run value of task A: assigned to node 0 at time 0, ends at 5. -/
def demoAFinal : Task :=
  { demoA with assigned_node := some 0, start_time := some 0, end_time := some 5 }

/-- Post-run value of task B: assigned to node 0 at time 5 (= its deadline),
ends at 10 (past its deadline). -/
def demoBFinal : Task :=
  { demoB with assigned_node := some 0, start_time := some 5, end_time := some 10 }

/-- The claim that some simulation run assigns a task a start time strictly
after its deadline. -/
def ExistsLateStart : Prop :=
  ∃ (nodes0 : List Node) (tasks0 : List Task) (n : Nat) (tk : Task) (v : Int),
    InitOK nodes0 tasks0 ∧
    tk ∈ (runSim (initState nodes0 tasks0) n).tasks_queue ∧
    tk.start_time = some v ∧ tk.deadline < v

theorem insertLe_perm {α : Type} (le : α → α → Bool) (x : α) :
    ∀ l : List α, (insertLe le x l).Perm (x :: l) := by
  intro l
  induction l with
  | nil => simp [insertLe]
  | cons y ys ih =>
      by_cases h : le x y
      · simp [insertLe, h]
      · simp only [insertLe, if_neg h]
        exact (ih.cons y).trans (List.Perm.swap x y ys)

theorem sortedBy_perm {α : Type} (le : α → α → Bool) :
    ∀ l : List α, (sortedBy le l).Perm l := by
  intro l
  induction l with
  | nil => exact List.Perm.refl _
  | cons x xs ih =>
      exact (insertLe_perm le x (sortedBy le xs)).trans (ih.cons x)

theorem mem_sortedBy {α : Type} {le : α → α → Bool} {a : α} {l : List α} :
    a ∈ sortedBy le l ↔ a ∈ l :=
  (sortedBy_perm le l).mem_iff

theorem firstMaxBy_eq_none {α : Type} (f : α → ℚ) (l : List α) :
    firstMaxBy f l = none ↔ l = [] := by
  cases l with
  | nil => simp [firstMaxBy]
  | cons x xs =>
      simp only [firstMaxBy]
      cases firstMaxBy f xs with
      | none => simp
      | some y =>
          by_cases h : f x < f y <;> simp [h]

theorem sortedBy_head?_firstMaxBy {α : Type} (f : α → ℚ) (le : α → α → Bool)
    (hle : ∀ p q, le p q = true ↔ f q ≤ f p) :
    ∀ l : List α, (sortedBy le l).head? = firstMaxBy f l := by
  intro l
  induction l with
  | nil => rfl
  | cons x xs ih =>
      show (insertLe le x (sortedBy le xs)).head? = _
      cases hs : sortedBy le xs with
      | nil =>
          have hn : firstMaxBy f xs = none := by rw [← ih, hs]; rfl
          simp [insertLe, firstMaxBy, hn]
      | cons y ys =>
          have hy : firstMaxBy f xs = some y := by rw [← ih, hs]; rfl
          simp only [firstMaxBy, hy]
          by_cases h : f y ≤ f x
          · have hb : le x y = true := (hle x y).mpr h
            simp [insertLe, hb, not_lt.mpr h]
          · have hb : le x y = false :=
              Bool.eq_false_iff.mpr (fun hc => h ((hle x y).mp hc))
            simp [insertLe, hb, not_le.mp h]

theorem chooseCand_eq_firstMaxBy (alpha beta : ℚ) (cands : List (Nat × Node)) :
    chooseCand alpha beta cands = firstMaxBy (fun p => nodeScore alpha beta p.2) cands := by
  show (sortedBy (nodeDescLe alpha beta) cands).head? = _
  exact sortedBy_head?_firstMaxBy (fun p => nodeScore alpha beta p.2)
    (nodeDescLe alpha beta) (fun p q => by simp [nodeDescLe]) cands

theorem chooseCand_none_iff (alpha beta : ℚ) (cands : List (Nat × Node)) :
    chooseCand alpha beta cands = none ↔ cands = [] := by
  rw [chooseCand, List.head?_eq_none_iff]
  constructor
  · intro h
    have := (sortedBy_perm (nodeDescLe alpha beta) cands).length_eq
    rw [h] at this
    exact List.length_eq_zero.mp this.symm
  · intro h; subst h; rfl

theorem chooseCand_mem {alpha beta : ℚ} {cands : List (Nat × Node)}
    {p : Nat × Node} (h : chooseCand alpha beta cands = some p) : p ∈ cands := by
  rw [chooseCand] at h
  cases hs : sortedBy (nodeDescLe alpha beta) cands with
  | nil => rw [hs] at h; exact absurd h (by simp)
  | cons z zs =>
      rw [hs] at h
      simp only [List.head?_cons, Option.some.injEq] at h
      subst h
      exact (sortedBy_perm (nodeDescLe alpha beta) cands).mem_iff.mp
        (by rw [hs]; exact List.mem_cons_self _ _)

theorem firstMaxBy_mem {α : Type} {f : α → ℚ} :
    ∀ {l : List α} {x : α}, firstMaxBy f l = some x → x ∈ l := by
  intro l
  induction l with
  | nil => intro x h; exact absurd h (by simp [firstMaxBy])
  | cons z zs ih =>
      intro x h
      simp only [firstMaxBy] at h
      cases hz : firstMaxBy f zs with
      | none =>
          rw [hz] at h
          replace h : some z = some x := h
          exact (Option.some.inj h) ▸ List.mem_cons_self _ _
      | some y =>
          rw [hz] at h
          replace h : (if f z < f y then some y else some z) = some x := h
          by_cases hlt : f z < f y
          · rw [if_pos hlt] at h
            exact (Option.some.inj h) ▸ List.mem_cons_of_mem _ (ih hz)
          · rw [if_neg hlt] at h
            exact (Option.some.inj h) ▸ List.mem_cons_self _ _

theorem firstMaxBy_le {α : Type} {f : α → ℚ} :
    ∀ {l : List α} {x : α}, firstMaxBy f l = some x → ∀ y ∈ l, f y ≤ f x := by
  intro l
  induction l with
  | nil => intro x h; exact absurd h (by simp [firstMaxBy])
  | cons z zs ih =>
      intro x h y hy
      simp only [firstMaxBy] at h
      cases hz : firstMaxBy f zs with
      | none =>
          rw [hz] at h
          replace h : some z = some x := h
          cases Option.some.inj h
          rcases List.mem_cons.mp hy with rfl | hy'
          · exact le_refl _
          · exact absurd ((firstMaxBy_eq_none f zs).mp hz ▸ hy') (by simp)
      | some w =>
          rw [hz] at h
          replace h : (if f z < f w then some w else some z) = some x := h
          by_cases hlt : f z < f w
          · rw [if_pos hlt] at h
            cases Option.some.inj h
            rcases List.mem_cons.mp hy with rfl | hy'
            · exact le_of_lt hlt
            · exact ih hz y hy'
          · rw [if_neg hlt] at h
            cases Option.some.inj h
            rcases List.mem_cons.mp hy with rfl | hy'
            · exact le_refl _
            · exact (ih hz y hy').trans (not_lt.mp hlt)

theorem firstMaxBy_first {α : Type} {f : α → ℚ} :
    ∀ {l : List α} {x : α}, firstMaxBy f l = some x →
      ∃ l1 l2, l = l1 ++ x :: l2 ∧ ∀ y ∈ l1, f y < f x := by
  intro l
  induction l with
  | nil => intro x h; exact absurd h (by simp [firstMaxBy])
  | cons z zs ih =>
      intro x h
      simp only [firstMaxBy] at h
      cases hz : firstMaxBy f zs with
      | none =>
          rw [hz] at h
          replace h : some z = some x := h
          cases Option.some.inj h
          exact ⟨[], zs, rfl, by simp⟩
      | some w =>
          rw [hz] at h
          replace h : (if f z < f w then some w else some z) = some x := h
          by_cases hlt : f z < f w
          · rw [if_pos hlt] at h
            cases Option.some.inj h
            obtain ⟨l1, l2, hsplit, hall⟩ := ih hz
            refine ⟨z :: l1, l2, by rw [hsplit]; rfl, ?_⟩
            intro y hy
            rcases List.mem_cons.mp hy with rfl | hy'
            · exact hlt
            · exact hall y hy'
          · rw [if_neg hlt] at h
            cases Option.some.inj h
            exact ⟨[], zs, rfl, by simp⟩

theorem insertLe_pairwise_deadline {x : Task} {l : List Task}
    (h : l.Pairwise (fun a b : Task => a.deadline ≤ b.deadline)) :
    (insertLe taskLe x l).Pairwise (fun a b : Task => a.deadline ≤ b.deadline) := by
  induction l with
  | nil => simp [insertLe]
  | cons y ys ih =>
      rcases List.pairwise_cons.mp h with ⟨hy, hys⟩
      by_cases hxy : taskLe x y
      · have hx : x.deadline ≤ y.deadline := by simpa [taskLe] using hxy
        simp only [insertLe, if_pos hxy]
        refine List.pairwise_cons.mpr ⟨?_, h⟩
        intro z hz
        rcases List.mem_cons.mp hz with rfl | hz'
        · exact hx
        · exact hx.trans (hy z hz')
      · have hyx : y.deadline < x.deadline := by
          have := hxy; simp [taskLe] at this; omega
        simp only [insertLe, if_neg hxy]
        refine List.pairwise_cons.mpr ⟨?_, ih hys⟩
        intro z hz
        rcases List.mem_cons.mp ((insertLe_perm taskLe x ys).mem_iff.mp hz) with h1 | h1
        · cases h1; exact le_of_lt hyx
        · exact hy z h1

theorem sortedBy_pairwise_deadline :
    ∀ l : List Task,
      (sortedBy taskLe l).Pairwise (fun a b : Task => a.deadline ≤ b.deadline) := by
  intro l
  induction l with
  | nil => simp [sortedBy]
  | cons x xs ih => exact insertLe_pairwise_deadline ih

theorem filter_insertLe_deadline (d : Int) (x : Task) :
    ∀ l : List Task,
      (insertLe taskLe x l).filter (fun tk => decide (tk.deadline = d)) =
        if x.deadline = d then
          x :: l.filter (fun tk => decide (tk.deadline = d))
        else l.filter (fun tk => decide (tk.deadline = d)) := by
  intro l
  induction l with
  | nil =>
      by_cases hd : x.deadline = d <;> simp [insertLe, List.filter, hd]
  | cons y ys ih =>
      by_cases hxy : taskLe x y
      · by_cases hd : x.deadline = d <;>
          simp [insertLe, hxy, List.filter_cons, hd]
      · have hyx : y.deadline < x.deadline := by
          have := hxy; simp [taskLe] at this; omega
        simp only [insertLe, if_neg hxy, List.filter_cons, ih]
        by_cases hyd : y.deadline = d
        · by_cases hd : x.deadline = d
          · omega
          · simp [hyd, hd]
        · by_cases hd : x.deadline = d <;> simp [hyd, hd]

theorem sortedBy_filter_deadline (d : Int) :
    ∀ l : List Task,
      (sortedBy taskLe l).filter (fun tk => decide (tk.deadline = d)) =
        l.filter (fun tk => decide (tk.deadline = d)) := by
  intro l
  induction l with
  | nil => rfl
  | cons x xs ih =>
      show (insertLe taskLe x (sortedBy taskLe xs)).filter _ = _
      rw [filter_insertLe_deadline, ih, List.filter_cons]
      by_cases hd : x.deadline = d <;> simp [hd]

theorem foldl_erase_aux {α : Type} [DecidableEq α] {x : α} :
    ∀ (F s : List α), (∀ a ∈ F, a ≠ x) →
      F.foldl (fun acc a => acc.erase a) (x :: s) =
        x :: F.foldl (fun acc a => acc.erase a) s := by
  intro F
  induction F with
  | nil => intro s _; rfl
  | cons a F ih =>
      intro s hne
      simp only [List.foldl_cons]
      rw [List.erase_cons_tail (by
        simp only [beq_iff_eq]
        exact fun hxa => hne a (List.mem_cons_self a F) hxa.symm)]
      exact ih _ (fun b hb => hne b (List.mem_cons_of_mem a hb))

theorem foldl_erase_filter {α : Type} [DecidableEq α] (p : α → Bool) :
    ∀ l : List α,
      (l.filter p).foldl (fun acc a => acc.erase a) l =
        l.filter (fun a => !p a) := by
  intro l
  induction l with
  | nil => rfl
  | cons x l ih =>
      by_cases hp : p x
      · rw [List.filter_cons_of_pos hp]
        simp only [List.foldl_cons]
        rw [List.erase_cons_head, ih, List.filter_cons_of_neg (by simp [hp])]
      · rw [List.filter_cons_of_neg hp]
        rw [foldl_erase_aux _ _ (fun a ha => by
          intro hax
          exact hp (hax ▸ List.of_mem_filter ha))]
        rw [ih, List.filter_cons_of_pos (by simp [hp])]

theorem node_foldl_split (F : List Task) :
    ∀ nd : Node,
      F.foldl
        (fun nd task =>
          { nd with
              schedule := nd.schedule.erase task
              current_load := nd.current_load - task.required })
        nd =
      { nd with
          schedule := F.foldl (fun s task => s.erase task) nd.schedule
          current_load := nd.current_load - (F.map Task.required).sum } := by
  induction F with
  | nil => intro nd; simp
  | cons a F ih =>
      intro nd
      simp only [List.foldl_cons, List.map_cons, List.sum_cons]
      rw [ih]
      simp [sub_sub]

theorem update_node_eq (nd : Node) (t : Int) :
    update_node nd t =
      { nd with
          schedule := nd.schedule.filter (fun tk => !taskFinished tk t)
          current_load := nd.current_load -
            ((nd.schedule.filter (fun tk => taskFinished tk t)).map Task.required).sum } := by
  show (nd.schedule.filter (fun tk => taskFinished tk t)).foldl _ nd = _
  rw [node_foldl_split]
  rw [foldl_erase_filter]

theorem sum_required_split (p : Task → Bool) :
    ∀ l : List Task,
      ((l.filter p).map Task.required).sum +
        ((l.filter (fun a => !p a)).map Task.required).sum =
      (l.map Task.required).sum := by
  intro l
  induction l with
  | nil => simp
  | cons x l ih =>
      by_cases hp : p x
      · rw [List.filter_cons_of_pos hp, List.filter_cons_of_neg (by simp [hp])]
        simp only [List.map_cons, List.sum_cons]
        omega
      · rw [List.filter_cons_of_neg hp, List.filter_cons_of_pos (by simp [hp])]
        simp only [List.map_cons, List.sum_cons]
        omega

theorem update_node_ok {nd : Node} {t : Int} (h : NodeOk nd) :
    NodeOk (update_node nd t) := by
  obtain ⟨⟨hsum, hcap⟩, hnn⟩ := h
  have hsplit := sum_required_split (fun tk => taskFinished tk t) nd.schedule
  have hnn2 : 0 ≤ ((nd.schedule.filter (fun tk => taskFinished tk t)).map Task.required).sum := by
    apply List.sum_nonneg
    intro x hx
    obtain ⟨tk, htk, rfl⟩ := List.mem_map.mp hx
    exact hnn tk (List.mem_of_mem_filter htk)
  rw [update_node_eq]
  simp only [NodeOk, NodeInv]
  refine ⟨⟨by omega, by omega⟩, ?_⟩
  intro tk htk
  exact hnn tk (List.mem_of_mem_filter htk)

theorem update_nodes_ok {nodes : List Node} {t : Int}
    (h : ∀ nd ∈ nodes, NodeOk nd) :
    ∀ nd ∈ update_nodes nodes t, NodeOk nd := by
  intro nd hnd
  obtain ⟨nd0, hnd0, rfl⟩ := List.mem_map.mp hnd
  exact update_node_ok (h nd0 hnd0)

theorem update_node_idem (nd : Node) (t : Int) :
    update_node (update_node nd t) t = update_node nd t := by
  rw [update_node_eq (update_node nd t), update_node_eq nd t]
  have h1 : (List.filter (fun tk => taskFinished tk t)
      (List.filter (fun tk => !taskFinished tk t) nd.schedule)) = [] := by
    rw [List.filter_filter]
    apply List.filter_eq_nil_iff.mpr
    intro a _
    cases taskFinished a t <;> simp
  have h2 : (List.filter (fun tk => !taskFinished tk t)
      (List.filter (fun tk => !taskFinished tk t) nd.schedule)) =
      List.filter (fun tk => !taskFinished tk t) nd.schedule := by
    rw [List.filter_filter]
    apply List.filter_congr
    intro a _
    cases taskFinished a t <;> simp
  simp [h1, h2]

theorem update_nodes_idem (nodes : List Node) (t : Int) :
    update_nodes (update_nodes nodes t) t = update_nodes nodes t := by
  show (update_nodes nodes t).map _ = _
  rw [update_nodes, List.map_map]
  apply List.map_congr_left
  intro nd _
  exact update_node_idem nd t

theorem not_mem_update_node {nd : Node} {t : Int} {tk : Task}
    (h : taskFinished tk t = true) : tk ∉ (update_node nd t).schedule := by
  rw [update_node_eq]
  intro hmem
  have := List.of_mem_filter hmem
  rw [h] at this
  exact absurd this (by simp)

theorem update_nodes_map_capacity (nodes : List Node) (t : Int) :
    (update_nodes nodes t).map Node.capacity = nodes.map Node.capacity := by
  rw [update_nodes, List.map_map]
  apply List.map_congr_left
  intro nd _
  show (update_node nd t).capacity = nd.capacity
  rw [update_node_eq]

theorem update_nodes_map_node_id (nodes : List Node) (t : Int) :
    (update_nodes nodes t).map Node.node_id = nodes.map Node.node_id := by
  rw [update_nodes, List.map_map]
  apply List.map_congr_left
  intro nd _
  show (update_node nd t).node_id = nd.node_id
  rw [update_node_eq]

theorem flatten_sublist_flatten {α : Type} :
    ∀ {ls ls' : List (List α)}, List.Forall₂ List.Sublist ls ls' →
      ls.flatten.Sublist ls'.flatten := by
  intro ls ls' h
  induction h with
  | nil => exact List.Sublist.refl _
  | cons hab _ ih => exact List.Sublist.append hab ih

theorem allScheduled_update_sublist (nodes : List Node) (t : Int) :
    (allScheduled (update_nodes nodes t)).Sublist (allScheduled nodes) := by
  apply flatten_sublist_flatten
  rw [update_nodes, List.map_map]
  induction nodes with
  | nil => exact List.Forall₂.nil
  | cons nd nds ih =>
      refine List.Forall₂.cons ?_ ih
      show (update_node nd t).schedule.Sublist nd.schedule
      rw [update_node_eq]
      exact List.filter_sublist _

theorem set_of_getElem? {α : Type} :
    ∀ (l : List α) (i : Nat) (a : α), l[i]? = some a → l.set i a = l := by
  intro l
  induction l with
  | nil => intro i a h; simp at h
  | cons x xs ih =>
      intro i a h
      cases i with
      | zero => simp at h; subst h; rfl
      | succ j =>
          simp only [List.getElem?_cons_succ] at h
          simp [List.set_cons_succ, ih j a h]

theorem allScheduled_cons (nd : Node) (nds : List Node) :
    allScheduled (nd :: nds) = nd.schedule ++ allScheduled nds := by
  simp [allScheduled]

theorem allScheduled_set_perm {task2 : Task} {load2 : Int} :
    ∀ (nds : List Node) (i : Nat) (chosen : Node), nds[i]? = some chosen →
      (allScheduled (nds.set i
        { chosen with
            schedule := chosen.schedule ++ [task2]
            current_load := load2 })).Perm (task2 :: allScheduled nds) := by
  intro nds
  induction nds with
  | nil => intro i chosen h; simp at h
  | cons nd nds ih =>
      intro i chosen h
      cases i with
      | zero =>
          simp only [List.getElem?_cons_zero, Option.some.injEq] at h
          subst h
          simp only [List.set_cons_zero, allScheduled_cons, List.append_assoc]
          exact List.perm_middle
      | succ j =>
          simp only [List.getElem?_cons_succ] at h
          rw [List.set_cons_succ, allScheduled_cons, allScheduled_cons]
          exact (List.Perm.append_left nd.schedule (ih j chosen h)).trans
            List.perm_middle

theorem forall₂_mem_right {α β : Type} {R : α → β → Prop} :
    ∀ {l : List α} {l2 : List β}, List.Forall₂ R l l2 →
      ∀ b ∈ l2, ∃ a ∈ l, R a b := by
  intro l l2 h
  induction h with
  | nil => simp
  | cons hr _ ih =>
      intro b hb
      rcases List.mem_cons.mp hb with rfl | hb'
      · exact ⟨_, List.mem_cons_self _ _, hr⟩
      · obtain ⟨a, ha, har⟩ := ih b hb'
        exact ⟨a, List.mem_cons_of_mem _ ha, har⟩

theorem forall₂_mem_left {α β : Type} {R : α → β → Prop} :
    ∀ {l : List α} {l2 : List β}, List.Forall₂ R l l2 →
      ∀ a ∈ l, ∃ b ∈ l2, R a b := by
  intro l l2 h
  induction h with
  | nil => simp
  | cons hr _ ih =>
      intro a ha
      rcases List.mem_cons.mp ha with rfl | ha'
      · exact ⟨_, List.mem_cons_self _ _, hr⟩
      · obtain ⟨b, hb, hbr⟩ := ih a ha'
        exact ⟨b, List.mem_cons_of_mem _ hb, hbr⟩

theorem forall₂_map_eq {α β γ : Type} {R : α → β → Prop} (f : α → γ) (g : β → γ)
    (hR : ∀ a b, R a b → g b = f a) :
    ∀ {l : List α} {l2 : List β}, List.Forall₂ R l l2 → l2.map g = l.map f := by
  intro l l2 h
  induction h with
  | nil => rfl
  | cons hr _ ih => simp [ih, hR _ _ hr]

theorem assignTask_task_id (task : Task) (t : Int) (nid : Nat) :
    (assignTask task t nid).task_id = task.task_id := rfl

theorem assignedFrom_task_id {t : Int} {caps : List Int} {tk tk2 : Task}
    (h : AssignedFrom t caps tk tk2) : tk2.task_id = tk.task_id := by
  rcases h with rfl | ⟨nid, rfl, -⟩
  · rfl
  · rfl

theorem find?_id_unique :
    ∀ {l : List Task}, (l.map Task.task_id).Nodup → ∀ {tk : Task}, tk ∈ l →
      l.find? (fun t2 => t2.task_id == tk.task_id) = some tk := by
  intro l
  induction l with
  | nil => intro _ tk htk; simp at htk
  | cons x xs ih =>
      intro hnd tk htk
      have hnd' : x.task_id ∉ xs.map Task.task_id ∧ (xs.map Task.task_id).Nodup := by
        rw [List.map_cons, List.nodup_cons] at hnd
        exact hnd
      by_cases hx : x.task_id = tk.task_id
      · rcases List.mem_cons.mp htk with rfl | htk'
        · rw [List.find?_cons_of_pos _ (by simp)]
        · exact absurd (hx ▸ List.mem_map_of_mem Task.task_id htk') hnd'.1
      · rcases List.mem_cons.mp htk with rfl | htk'
        · exact absurd rfl hx
        · rw [List.find?_cons_of_neg _ (by simpa using hx)]
          exact ih hnd'.2 htk'

theorem sched_fold (alpha beta : ℚ) (t : Int) :
    ∀ (L done : List Task) (nds : List Node),
      (∀ nd ∈ nds, NodeOk nd) → (∀ tk ∈ L, 0 ≤ tk.required) →
      ∃ L2 newTks,
        (L.foldl (sched_step alpha beta t) (done, nds)).1 = done ++ L2 ∧
        List.Forall₂ (AssignedFrom t (nds.map Node.capacity)) L L2 ∧
        (L.foldl (sched_step alpha beta t) (done, nds)).2.map Node.capacity =
          nds.map Node.capacity ∧
        (L.foldl (sched_step alpha beta t) (done, nds)).2.map Node.node_id =
          nds.map Node.node_id ∧
        (∀ nd ∈ (L.foldl (sched_step alpha beta t) (done, nds)).2, NodeOk nd) ∧
        newTks.Sublist L2 ∧
        (∀ tk2 ∈ newTks, ∃ tk ∈ L, ∃ nid, tk2 = assignTask tk t nid) ∧
        (allScheduled (L.foldl (sched_step alpha beta t) (done, nds)).2).Perm
          (allScheduled nds ++ newTks) := by
  intro L
  induction L with
  | nil =>
      intro done nds hnodes _
      exact ⟨[], [], by simp, List.Forall₂.nil, rfl, rfl, hnodes,
        List.Sublist.refl _, by simp, by simp⟩
  | cons x L ih =>
      intro done nds hnodes hL
      simp only [List.foldl_cons]
      cases hc : chooseCand alpha beta (candidate_nodes x nds) with
      | none =>
          have hstep : sched_step alpha beta t (done, nds) x = (done ++ [x], nds) := by
            simp [sched_step, hc]
          rw [hstep]
          obtain ⟨L2, newTks, h1, h2, h3, h4, h5, h6, h7, h8⟩ :=
            ih (done ++ [x]) nds hnodes (fun tk htk => hL tk (List.mem_cons_of_mem x htk))
          refine ⟨x :: L2, newTks, ?_, List.Forall₂.cons (Or.inl rfl) h2,
            h3, h4, h5, List.Sublist.cons x h6, ?_, h8⟩
          · rw [h1]; simp
          · intro tk2 htk2
            obtain ⟨tk, htk, hni⟩ := h7 tk2 htk2
            exact ⟨tk, List.mem_cons_of_mem x htk, hni⟩
      | some p =>
          obtain ⟨i, chosen⟩ := p
          have hmemc : (i, chosen) ∈ candidate_nodes x nds := chooseCand_mem hc
          obtain ⟨henum, hfitb⟩ := List.mem_filter.mp hmemc
          have hfit : x.required ≤ chosen.available_capacity := of_decide_eq_true hfitb
          have hget : nds[i]? = some chosen := List.mem_enum_iff_getElem?.mp henum
          have hchmem : chosen ∈ nds := List.getElem?_mem hget
          have hok := hnodes chosen hchmem
          have hload0 : 0 ≤ chosen.current_load := by
            rw [hok.1.1]
            apply List.sum_nonneg
            intro v hv
            obtain ⟨tk, htk, rfl⟩ := List.mem_map.mp hv
            exact hok.2 tk htk
          have hxreq : 0 ≤ x.required := hL x (List.mem_cons_self x L)
          have hstep : sched_step alpha beta t (done, nds) x =
              (done ++ [assignTask x t chosen.node_id],
               nds.set i
                 { chosen with
                     schedule := chosen.schedule ++ [assignTask x t chosen.node_id]
                     current_load := chosen.current_load + x.required }) := by
            simp [sched_step, hc]
          rw [hstep]
          have hcaps2 : (nds.set i
              { chosen with
                  schedule := chosen.schedule ++ [assignTask x t chosen.node_id]
                  current_load := chosen.current_load + x.required }).map Node.capacity =
              nds.map Node.capacity := by
            rw [List.map_set]
            apply set_of_getElem?
            rw [List.getElem?_map, hget]
            rfl
          have hids2 : (nds.set i
              { chosen with
                  schedule := chosen.schedule ++ [assignTask x t chosen.node_id]
                  current_load := chosen.current_load + x.required }).map Node.node_id =
              nds.map Node.node_id := by
            rw [List.map_set]
            apply set_of_getElem?
            rw [List.getElem?_map, hget]
            rfl
          have hnodes2 : ∀ nd ∈ nds.set i
              { chosen with
                  schedule := chosen.schedule ++ [assignTask x t chosen.node_id]
                  current_load := chosen.current_load + x.required }, NodeOk nd := by
            intro nd hnd
            rcases List.mem_or_eq_of_mem_set hnd with h | h
            · exact hnodes nd h
            · subst h
              refine ⟨⟨?_, ?_⟩, ?_⟩
              · show chosen.current_load + x.required =
                  ((chosen.schedule ++ [assignTask x t chosen.node_id]).map Task.required).sum
                rw [List.map_append, List.sum_append]
                have : (assignTask x t chosen.node_id).required = x.required := rfl
                simp [this, hok.1.1]
              · show chosen.current_load + x.required ≤ chosen.capacity
                have := hfit
                unfold Node.available_capacity at this
                omega
              · intro tk htk
                rcases List.mem_append.mp htk with h | h
                · exact hok.2 tk h
                · rw [List.mem_singleton.mp h]
                  exact hxreq
          have hperm2 : (allScheduled (nds.set i
              { chosen with
                  schedule := chosen.schedule ++ [assignTask x t chosen.node_id]
                  current_load := chosen.current_load + x.required })).Perm
              (allScheduled nds ++ [assignTask x t chosen.node_id]) :=
            (allScheduled_set_perm nds i chosen hget).trans
              (List.perm_append_singleton _ _).symm
          obtain ⟨L2, newTks, h1, h2, h3, h4, h5, h6, h7, h8⟩ :=
            ih (done ++ [assignTask x t chosen.node_id]) _ hnodes2
              (fun tk htk => hL tk (List.mem_cons_of_mem x htk))
          rw [hcaps2] at h2
          refine ⟨assignTask x t chosen.node_id :: L2,
            assignTask x t chosen.node_id :: newTks, ?_, ?_, h3.trans hcaps2,
            h4.trans hids2, h5, List.Sublist.cons₂ _ h6, ?_, ?_⟩
          · rw [h1]; simp
          · refine List.Forall₂.cons (Or.inr ⟨chosen.node_id, rfl, chosen.capacity,
              List.mem_map_of_mem Node.capacity hchmem, ?_⟩) h2
            have := hfit
            unfold Node.available_capacity at this
            omega
          · intro tk2 htk2
            rcases List.mem_cons.mp htk2 with rfl | htk2'
            · exact ⟨x, List.mem_cons_self x L, chosen.node_id, rfl⟩
            · obtain ⟨tk, htk, hni⟩ := h7 tk2 htk2'
              exact ⟨tk, List.mem_cons_of_mem x htk, hni⟩
          · refine (h8.trans ((hperm2.append_right newTks).trans ?_))
            rw [List.append_assoc]
            exact List.Perm.refl _

theorem sched_noop (alpha beta : ℚ) (t : Int) :
    ∀ (L done : List Task) (nds : List Node),
      (∀ tk ∈ L, ∀ nd ∈ nds, nd.available_capacity < tk.required) →
      L.foldl (sched_step alpha beta t) (done, nds) = (done ++ L, nds) := by
  intro L
  induction L with
  | nil => intro done nds _; simp
  | cons x L ih =>
      intro done nds h
      have hcand : candidate_nodes x nds = [] := by
        apply List.filter_eq_nil_iff.mpr
        intro p hp
        have hmem : p.2 ∈ nds :=
          List.getElem?_mem (List.mem_enum_iff_getElem?.mp hp)
        have := h x (List.mem_cons_self x L) p.2 hmem
        simp only [decide_eq_true_eq]
        omega
      have hstep : sched_step alpha beta t (done, nds) x = (done ++ [x], nds) := by
        simp [sched_step, hcand, chooseCand, sortedBy]
      simp only [List.foldl_cons]
      rw [hstep, ih (done ++ [x]) nds
        (fun tk htk nd hnd => h tk (List.mem_cons_of_mem x htk) nd hnd)]
      simp

theorem mem_pendingOf {tasks : List Task} {t : Int} {tk : Task} :
    tk ∈ pendingOf tasks t ↔
      tk ∈ tasks ∧ tk.start_time = none ∧ t ≤ tk.deadline := by
  simp [pendingOf, List.mem_filter, and_assoc]

theorem schedule_tasks_nil (nodes : List Node) (t : Int) (alpha beta : ℚ) :
    schedule_tasks [] nodes t alpha beta = ([], nodes) := rfl

theorem mergeScheduled_nil (tasks : List Task) :
    mergeScheduled tasks [] = tasks := by
  simp [mergeScheduled]

theorem simStep_eq2 (s : SimState) :
    simStep s =
      { tasks_queue := mergeScheduled s.tasks_queue
          (schedule_tasks (pendingOf s.tasks_queue s.current_time)
            (update_nodes s.nodes s.current_time) s.current_time s.alpha s.beta).1
        nodes := (schedule_tasks (pendingOf s.tasks_queue s.current_time)
            (update_nodes s.nodes s.current_time) s.current_time s.alpha s.beta).2
        alpha := s.alpha
        beta := betaUpdate (schedule_tasks (pendingOf s.tasks_queue s.current_time)
            (update_nodes s.nodes s.current_time) s.current_time s.alpha s.beta).2
        current_time := s.current_time + 1 } := by
  cases hq : pendingOf s.tasks_queue s.current_time with
  | nil =>
      simp only [simStep, hq]
      simp [schedule_tasks_nil, mergeScheduled_nil]
  | cons a as =>
      simp only [simStep, hq]
      simp

theorem simStep_alpha (s : SimState) : (simStep s).alpha = s.alpha := rfl

theorem simStep_beta (s : SimState) :
    (simStep s).beta = betaUpdate (simStep s).nodes := rfl

theorem simStep_time (s : SimState) :
    (simStep s).current_time = s.current_time + 1 := rfl

theorem runSim_succ (s : SimState) (n : Nat) :
    runSim s (n + 1) = simStep (runSim s n) := rfl

theorem runSim_add (s : SimState) (n : Nat) :
    ∀ m, runSim s (n + m) = runSim (runSim s n) m := by
  intro m
  induction m with
  | zero => rfl
  | succ k ih => rw [← Nat.add_assoc, runSim_succ, runSim_succ, ih]

theorem allScheduled_nil_of_empty {nodes : List Node}
    (h : ∀ nd ∈ nodes, nd.schedule = []) : allScheduled nodes = [] := by
  induction nodes with
  | nil => rfl
  | cons nd nds ih =>
      rw [allScheduled_cons, h nd (List.mem_cons_self _ _),
        ih (fun x hx => h x (List.mem_cons_of_mem _ hx))]
      rfl

theorem simInv_init {nodes0 : List Node} {tasks0 : List Task}
    (h : InitOK nodes0 tasks0) : SimInv (initState nodes0 tasks0) := by
  obtain ⟨hn, ht, hids⟩ := h
  have hempty : allScheduled nodes0 = [] :=
    allScheduled_nil_of_empty (fun nd hnd => (hn nd hnd).2.1)
  refine ⟨hids, ?_, ?_, ?_, ?_⟩
  · intro tk htk
    obtain ⟨hreq, hassigned, hstart, hend⟩ := ht tk htk
    refine ⟨hreq, Or.inl ⟨hassigned, hstart, hend⟩, ?_⟩
    intro v hv
    rw [hstart] at hv
    exact absurd hv (by simp)
  · intro nd hnd
    obtain ⟨hload, hsched, hcap⟩ := hn nd hnd
    refine ⟨⟨?_, ?_⟩, ?_⟩
    · rw [hload, hsched]; rfl
    · omega
    · intro tk htk
      rw [hsched] at htk
      exact absurd htk (by simp)
  · intro tk htk
    have htk' : tk ∈ allScheduled nodes0 := htk
    rw [hempty] at htk'
    exact absurd htk' (by simp)
  · show ((allScheduled nodes0).map Task.task_id).Nodup
    rw [hempty]
    exact List.nodup_nil

theorem simStep_main {s : SimState} (hinv : SimInv s) :
    SimInv (simStep s) ∧
    (simStep s).nodes.map Node.capacity = s.nodes.map Node.capacity ∧
    (∀ tk ∈ s.tasks_queue, tk.start_time ≠ none → tk ∈ (simStep s).tasks_queue) ∧
    (∀ tk ∈ s.tasks_queue, tk.start_time = none →
      (∀ c ∈ s.nodes.map Node.capacity, c < tk.required) →
      tk ∈ (simStep s).tasks_queue) := by
  obtain ⟨hids, htasks, hnodesOk, hsched, hschedNodup⟩ := hinv
  have hn1 : ∀ nd ∈ update_nodes s.nodes s.current_time, NodeOk nd :=
    update_nodes_ok hnodesOk
  have hsub1 : (allScheduled (update_nodes s.nodes s.current_time)).Sublist
      (allScheduled s.nodes) := allScheduled_update_sublist s.nodes s.current_time
  have hPmem : ∀ tk ∈ pendingOf s.tasks_queue s.current_time,
      tk ∈ s.tasks_queue ∧ tk.start_time = none ∧ s.current_time ≤ tk.deadline :=
    fun tk htk => mem_pendingOf.mp htk
  have hPsub : (pendingOf s.tasks_queue s.current_time).Sublist s.tasks_queue :=
    List.filter_sublist _
  have hPids : ((pendingOf s.tasks_queue s.current_time).map Task.task_id).Nodup :=
    List.Nodup.sublist (hPsub.map Task.task_id) hids
  have hLperm := sortedBy_perm taskLe (pendingOf s.tasks_queue s.current_time)
  have hLids : ((sortedBy taskLe (pendingOf s.tasks_queue s.current_time)).map
      Task.task_id).Nodup := ((hLperm.map Task.task_id).nodup_iff).mpr hPids
  have hLreq : ∀ tk ∈ sortedBy taskLe (pendingOf s.tasks_queue s.current_time),
      0 ≤ tk.required :=
    fun tk htk => (htasks tk (hPmem tk (mem_sortedBy.mp htk)).1).1
  obtain ⟨L2, newTks, h1, h2, h3, h4, h5, h6, h7, h8⟩ :=
    sched_fold s.alpha s.beta s.current_time
      (sortedBy taskLe (pendingOf s.tasks_queue s.current_time)) []
      (update_nodes s.nodes s.current_time) hn1 hLreq
  have hres1 : (schedule_tasks (pendingOf s.tasks_queue s.current_time)
      (update_nodes s.nodes s.current_time) s.current_time s.alpha s.beta).1 = L2 := by
    have h1' : (schedule_tasks (pendingOf s.tasks_queue s.current_time)
        (update_nodes s.nodes s.current_time) s.current_time s.alpha s.beta).1 =
        [] ++ L2 := h1
    simpa using h1'
  have hres3 : (schedule_tasks (pendingOf s.tasks_queue s.current_time)
      (update_nodes s.nodes s.current_time) s.current_time s.alpha s.beta).2.map
      Node.capacity = (update_nodes s.nodes s.current_time).map Node.capacity := h3
  have hres5 : ∀ nd ∈ (schedule_tasks (pendingOf s.tasks_queue s.current_time)
      (update_nodes s.nodes s.current_time) s.current_time s.alpha s.beta).2,
      NodeOk nd := h5
  have hres8 : (allScheduled (schedule_tasks (pendingOf s.tasks_queue s.current_time)
      (update_nodes s.nodes s.current_time) s.current_time s.alpha s.beta).2).Perm
      (allScheduled (update_nodes s.nodes s.current_time) ++ newTks) := h8
  have hTQ : (simStep s).tasks_queue = mergeScheduled s.tasks_queue L2 := by
    rw [simStep_eq2, hres1]
  have hND : (simStep s).nodes = (schedule_tasks (pendingOf s.tasks_queue s.current_time)
      (update_nodes s.nodes s.current_time) s.current_time s.alpha s.beta).2 := by
    rw [simStep_eq2]
  have hL2ids : L2.map Task.task_id =
      (sortedBy taskLe (pendingOf s.tasks_queue s.current_time)).map Task.task_id :=
    forall₂_map_eq Task.task_id Task.task_id
      (fun _ _ h => assignedFrom_task_id h) h2
  have hL2Nodup : (L2.map Task.task_id).Nodup := hL2ids ▸ hLids
  have hNewIdsNodup : (newTks.map Task.task_id).Nodup :=
    List.Nodup.sublist (h6.map Task.task_id) hL2Nodup
  -- the element found for a ledger task is that task's own image under the call
  have hM : ∀ tk ∈ s.tasks_queue, ∀ t2,
      L2.find? (fun u => u.task_id == tk.task_id) = some t2 →
      tk ∈ pendingOf s.tasks_queue s.current_time ∧
      AssignedFrom s.current_time
        ((update_nodes s.nodes s.current_time).map Node.capacity) tk t2 := by
    intro tk htk t2 hf
    have ht2id : t2.task_id = tk.task_id := by simpa using List.find?_some hf
    have ht2mem : t2 ∈ L2 := List.mem_of_find?_eq_some hf
    obtain ⟨tk0, htk0L, hrel⟩ := forall₂_mem_right h2 t2 ht2mem
    have htk0P : tk0 ∈ pendingOf s.tasks_queue s.current_time := mem_sortedBy.mp htk0L
    have heqtk : tk0 = tk :=
      List.inj_on_of_nodup_map hids (hPmem tk0 htk0P).1 htk
        ((assignedFrom_task_id hrel).symm.trans ht2id)
    exact ⟨heqtk ▸ htk0P, heqtk ▸ hrel⟩
  have hMnone : ∀ tk ∈ s.tasks_queue, tk ∉ pendingOf s.tasks_queue s.current_time →
      L2.find? (fun u => u.task_id == tk.task_id) = none := by
    intro tk htk hnP
    cases hf : L2.find? (fun u => u.task_id == tk.task_id) with
    | none => rfl
    | some t2 => exact absurd (hM tk htk t2 hf).1 hnP
  have hMassigned : ∀ tk ∈ s.tasks_queue, tk.start_time ≠ none →
      L2.find? (fun u => u.task_id == tk.task_id) = none :=
    fun tk htk hne => hMnone tk htk (fun hP => hne (hPmem tk hP).2.1)
  have hMergeMem : ∀ tk ∈ s.tasks_queue,
      L2.find? (fun u => u.task_id == tk.task_id) = none →
      tk ∈ mergeScheduled s.tasks_queue L2 := by
    intro tk htk hf
    have heq : (match L2.find? (fun t2 => t2.task_id == tk.task_id) with
        | some t2 => t2 | none => tk) = tk := by rw [hf]
    exact List.mem_map.mpr ⟨tk, htk, heq⟩
  have hMergeSome : ∀ tk ∈ s.tasks_queue, ∀ t2,
      L2.find? (fun u => u.task_id == tk.task_id) = some t2 →
      t2 ∈ mergeScheduled s.tasks_queue L2 := by
    intro tk htk t2 hf
    have heq : (match L2.find? (fun u => u.task_id == tk.task_id) with
        | some u => u | none => tk) = t2 := by rw [hf]
    exact List.mem_map.mpr ⟨tk, htk, heq⟩
  have hMergeElems : ∀ tk2 ∈ mergeScheduled s.tasks_queue L2, ∃ tk ∈ s.tasks_queue,
      (L2.find? (fun u => u.task_id == tk.task_id) = none ∧ tk2 = tk) ∨
      (∃ t2, L2.find? (fun u => u.task_id == tk.task_id) = some t2 ∧ tk2 = t2) := by
    intro tk2 htk2
    obtain ⟨tk, htk, heq⟩ := List.mem_map.mp htk2
    refine ⟨tk, htk, ?_⟩
    have heq' : (match L2.find? (fun u => u.task_id == tk.task_id) with
        | some u => u | none => tk) = tk2 := heq
    cases hf : L2.find? (fun u => u.task_id == tk.task_id) with
    | none =>
        rw [hf] at heq'
        exact Or.inl ⟨rfl, heq'.symm⟩
    | some t2 =>
        rw [hf] at heq'
        exact Or.inr ⟨t2, rfl, heq'.symm⟩
  have hidsMerge : (mergeScheduled s.tasks_queue L2).map Task.task_id =
      s.tasks_queue.map Task.task_id := by
    show (s.tasks_queue.map _).map Task.task_id = _
    rw [List.map_map]
    apply List.map_congr_left
    intro tk _
    show Task.task_id (match L2.find? (fun u => u.task_id == tk.task_id) with
      | some u => u | none => tk) = tk.task_id
    cases hf : L2.find? (fun u => u.task_id == tk.task_id) with
    | none => rfl
    | some t2 =>
        exact (by simpa using List.find?_some hf : t2.task_id = tk.task_id)
  have hCounter : ∀ tk ∈ pendingOf s.tasks_queue s.current_time,
      ∃ t2 ∈ L2, AssignedFrom s.current_time
        ((update_nodes s.nodes s.current_time).map Node.capacity) tk t2 ∧
        L2.find? (fun u => u.task_id == tk.task_id) = some t2 := by
    intro tk htkP
    obtain ⟨t2, ht2, hrel⟩ := forall₂_mem_left h2 tk (mem_sortedBy.mpr htkP)
    refine ⟨t2, ht2, hrel, ?_⟩
    have hfind := find?_id_unique hL2Nodup ht2
    rw [show (fun u : Task => u.task_id == tk.task_id) =
        (fun u : Task => u.task_id == t2.task_id) from by
      funext u; rw [assignedFrom_task_id hrel]]
    exact hfind
  refine ⟨⟨?_, ?_, ?_, ?_, ?_⟩, ?_, ?_, ?_⟩
  · -- ledger ids stay unique
    rw [hTQ, hidsMerge]
    exact hids
  · -- per-task properties
    intro tk2 htk2
    rw [hTQ] at htk2
    obtain ⟨tk, htk, hcase⟩ := hMergeElems tk2 htk2
    rcases hcase with ⟨-, heq⟩ | ⟨t2, hf, heq⟩
    · rw [heq]; exact htasks tk htk
    · rw [heq]
      obtain ⟨htkP, hrel⟩ := hM tk htk t2 hf
      rcases hrel with heq2 | ⟨nid, heq2, -⟩
      · rw [heq2]; exact htasks tk htk
      · rw [heq2]
        refine ⟨(htasks tk htk).1, Or.inr ⟨nid, s.current_time, rfl, rfl, rfl⟩, ?_⟩
        intro v hv
        have hvt : v = s.current_time := by
          have : some s.current_time = some v := hv
          exact (Option.some.inj this).symm
        subst hvt
        exact (hPmem tk htkP).2.2
  · -- nodes satisfy NodeOk
    rw [hND]
    exact hres5
  · -- scheduled tasks are ledger tasks with a start time
    intro tk2 htk2
    rw [hND] at htk2
    have htk2' : tk2 ∈ allScheduled (update_nodes s.nodes s.current_time) ++ newTks :=
      hres8.mem_iff.mp htk2
    rw [hTQ]
    rcases List.mem_append.mp htk2' with hl | hr
    · have hmem0 : tk2 ∈ allScheduled s.nodes := hsub1.subset hl
      obtain ⟨htkq, hne⟩ := hsched tk2 hmem0
      exact ⟨hMergeMem tk2 htkq (hMassigned tk2 htkq hne), hne⟩
    · obtain ⟨tk0, htk0L, nid, rfl⟩ := h7 tk2 hr
      have htk0P : tk0 ∈ pendingOf s.tasks_queue s.current_time :=
        mem_sortedBy.mp htk0L
      obtain ⟨t2, ht2L2, hrel, hfind⟩ := hCounter tk0 htk0P
      have hmemL2 : assignTask tk0 s.current_time nid ∈ L2 := h6.subset hr
      have ht2eq : t2 = assignTask tk0 s.current_time nid := by
        apply List.inj_on_of_nodup_map hL2Nodup ht2L2 hmemL2
        rw [assignedFrom_task_id hrel, assignTask_task_id]
      refine ⟨?_, by simp [assignTask]⟩
      rw [← ht2eq]
      exact hMergeSome tk0 (hPmem tk0 htk0P).1 t2 hfind
  · -- no duplicate ids across schedules
    rw [hND]
    apply ((hres8.map Task.task_id).nodup_iff).mpr
    rw [List.map_append]
    refine List.nodup_append.mpr ⟨?_, hNewIdsNodup, ?_⟩
    · exact List.Nodup.sublist (hsub1.map Task.task_id) hschedNodup
    · intro idv h1v h2v
      obtain ⟨tkA, htkA, hidA⟩ := List.mem_map.mp h1v
      obtain ⟨tkB, htkB, hidB⟩ := List.mem_map.mp h2v
      obtain ⟨tk0, htk0L, nid, rfl⟩ := h7 tkB htkB
      have htk0P : tk0 ∈ pendingOf s.tasks_queue s.current_time :=
        mem_sortedBy.mp htk0L
      obtain ⟨htkAq, hneA⟩ := hsched tkA (hsub1.subset htkA)
      have hAeq : tkA = tk0 := by
        apply List.inj_on_of_nodup_map hids htkAq (hPmem tk0 htk0P).1
        rw [hidA, ← hidB, assignTask_task_id]
      exact hneA (hAeq ▸ (hPmem tk0 htk0P).2.1)
  · -- capacities preserved
    rw [hND, hres3, update_nodes_map_capacity]
  · -- assigned ledger tasks persist unchanged
    intro tk htk hne
    rw [hTQ]
    exact hMergeMem tk htk (hMassigned tk htk hne)
  · -- tasks too large for every node persist unchanged
    intro tk htk hstart hcaps
    rw [hTQ]
    by_cases htkP : tk ∈ pendingOf s.tasks_queue s.current_time
    · obtain ⟨t2, _, hrel, hfind⟩ := hCounter tk htkP
      rcases hrel with heq2 | ⟨nid, -, c, hc, hcle⟩
      · rw [← heq2]
        exact hMergeSome tk htk t2 hfind
      · exfalso
        rw [update_nodes_map_capacity] at hc
        exact absurd hcle (by have := hcaps c hc; omega)
    · exact hMergeMem tk htk (hMnone tk htk htkP)

theorem update_node_of_empty {nd : Node} (h : nd.schedule = []) (t : Int) :
    update_node nd t = nd := by
  rw [update_node_eq, h]
  simp only [List.filter_nil, List.map_nil, List.sum_nil, sub_zero]
  rw [← h]

theorem simInv_run {nodes0 : List Node} {tasks0 : List Task}
    (h : InitOK nodes0 tasks0) :
    ∀ n, SimInv (runSim (initState nodes0 tasks0) n)
  | 0 => simInv_init h
  | n + 1 => (simStep_main (simInv_run h n)).1

theorem run_caps {nodes0 : List Node} {tasks0 : List Task}
    (h : InitOK nodes0 tasks0) :
    ∀ n, (runSim (initState nodes0 tasks0) n).nodes.map Node.capacity =
      nodes0.map Node.capacity := by
  intro n
  induction n with
  | zero => rfl
  | succ k ih => rw [runSim_succ, (simStep_main (simInv_run h k)).2.1, ih]

theorem run_start_le {nodes0 : List Node} {tasks0 : List Task}
    (h : InitOK nodes0 tasks0) :
    ∀ n, ∀ tk ∈ (runSim (initState nodes0 tasks0) n).tasks_queue, StartOk tk :=
  fun n tk htk => ((simInv_run h n).2.1 tk htk).2.2

theorem run_persist {nodes0 : List Node} {tasks0 : List Task}
    (h : InitOK nodes0 tasks0) :
    ∀ n m, ∀ tk ∈ (runSim (initState nodes0 tasks0) n).tasks_queue,
      tk.start_time ≠ none →
      tk ∈ (runSim (initState nodes0 tasks0) (n + m)).tasks_queue := by
  intro n m
  induction m with
  | zero => intro tk htk _; exact htk
  | succ k ih =>
      intro tk htk hne
      have h1 := ih tk htk hne
      show tk ∈ (simStep (runSim (initState nodes0 tasks0) (n + k))).tasks_queue
      exact (simStep_main (simInv_run h (n + k))).2.2.1 tk h1 hne

theorem run_unassignable {nodes0 : List Node} {tasks0 : List Task}
    (h : InitOK nodes0 tasks0) {tk : Task} (htk0 : tk ∈ tasks0)
    (hcap : ∀ c ∈ nodes0.map Node.capacity, c < tk.required) :
    ∀ n, tk ∈ (runSim (initState nodes0 tasks0) n).tasks_queue := by
  intro n
  induction n with
  | zero => exact htk0
  | succ k ih =>
      rw [runSim_succ]
      apply (simStep_main (simInv_run h k)).2.2.2 tk ih (h.2.1 tk htk0).2.2.1
      intro c hc
      rw [run_caps h k] at hc
      exact hcap c hc

theorem id_not_scheduled {s : SimState} (hinv : SimInv s) {tk : Task}
    (htk : tk ∈ s.tasks_queue) (hstart : tk.start_time = none) :
    ∀ tk2 ∈ allScheduled s.nodes, tk2.task_id ≠ tk.task_id := by
  intro tk2 htk2 heq
  obtain ⟨hmem, hne⟩ := hinv.2.2.2.1 tk2 htk2
  have h2 : tk2 = tk := List.inj_on_of_nodup_map hinv.1 hmem htk heq
  exact hne (h2 ▸ hstart)

theorem simStep_allUnfit {s : SimState}
    (hids : (s.tasks_queue.map Task.task_id).Nodup)
    (hsched0 : ∀ nd ∈ s.nodes, nd.schedule = [] ∧ nd.current_load = 0)
    (hcap : ∀ tk ∈ s.tasks_queue, ∀ nd ∈ s.nodes, nd.capacity < tk.required) :
    (simStep s).nodes = s.nodes ∧ (simStep s).tasks_queue = s.tasks_queue := by
  have hupd : update_nodes s.nodes s.current_time = s.nodes := by
    rw [update_nodes]
    rw [List.map_congr_left
      (fun nd hnd => update_node_of_empty (hsched0 nd hnd).1 s.current_time)]
    exact List.map_id _
  have hLsub : ∀ tk ∈ sortedBy taskLe (pendingOf s.tasks_queue s.current_time),
      tk ∈ s.tasks_queue :=
    fun tk htk => (mem_pendingOf.mp (mem_sortedBy.mp htk)).1
  have hnoop := sched_noop s.alpha s.beta s.current_time
    (sortedBy taskLe (pendingOf s.tasks_queue s.current_time)) [] s.nodes
    (fun tk htk nd hnd => by
      have h1 := hcap tk (hLsub tk htk) nd hnd
      have h2 := (hsched0 nd hnd).2
      unfold Node.available_capacity
      omega)
  have hres : schedule_tasks (pendingOf s.tasks_queue s.current_time) s.nodes
      s.current_time s.alpha s.beta =
      (sortedBy taskLe (pendingOf s.tasks_queue s.current_time), s.nodes) := by
    show (sortedBy taskLe (pendingOf s.tasks_queue s.current_time)).foldl
      (sched_step s.alpha s.beta s.current_time) ([], s.nodes) = _
    rw [hnoop, List.nil_append]
  have hmerge : mergeScheduled s.tasks_queue
      (sortedBy taskLe (pendingOf s.tasks_queue s.current_time)) = s.tasks_queue := by
    show s.tasks_queue.map _ = s.tasks_queue
    rw [List.map_congr_left ?_, List.map_id]
    intro tk htk
    show (match (sortedBy taskLe (pendingOf s.tasks_queue s.current_time)).find?
        (fun t2 => t2.task_id == tk.task_id) with
      | some t2 => t2 | none => tk) = tk
    cases hf : (sortedBy taskLe (pendingOf s.tasks_queue s.current_time)).find?
        (fun t2 => t2.task_id == tk.task_id) with
    | none => rfl
    | some t2 =>
        have ht2 : t2 ∈ sortedBy taskLe (pendingOf s.tasks_queue s.current_time) :=
          List.mem_of_find?_eq_some hf
        have hid : t2.task_id = tk.task_id := by simpa using List.find?_some hf
        exact List.inj_on_of_nodup_map hids (hLsub t2 ht2) htk hid
  constructor
  · rw [simStep_eq2, hupd, hres]
  · rw [simStep_eq2, hupd, hres]
    show mergeScheduled s.tasks_queue
      (sortedBy taskLe (pendingOf s.tasks_queue s.current_time)) = s.tasks_queue
    exact hmerge

theorem run_allUnfit {nodes0 : List Node} {tasks0 : List Task}
    (h : InitOK nodes0 tasks0)
    (hcap : ∀ tk ∈ tasks0, ∀ nd ∈ nodes0, nd.capacity < tk.required) :
    ∀ n, (runSim (initState nodes0 tasks0) n).nodes = nodes0 ∧
      (runSim (initState nodes0 tasks0) n).tasks_queue = tasks0 := by
  intro n
  induction n with
  | zero => exact ⟨rfl, rfl⟩
  | succ k ih =>
      obtain ⟨ihN, ihT⟩ := ih
      rw [runSim_succ]
      have hstep := simStep_allUnfit (s := runSim (initState nodes0 tasks0) k)
        (by rw [ihT]; exact h.2.2)
        (by rw [ihN]; exact fun nd hnd => ⟨(h.1 nd hnd).2.1, (h.1 nd hnd).1⟩)
        (by rw [ihN, ihT]; exact hcap)
      exact ⟨hstep.1.trans ihN, hstep.2.trans ihT⟩

theorem sched_step_eq_spec (alpha beta : ℚ) (t : Int)
    (acc : List Task × List Node) (task : Task) :
    sched_step alpha beta t acc task = sched_step_spec alpha beta t acc task := by
  rw [sched_step, sched_step_spec, chooseCand_eq_firstMaxBy]

theorem schedule_tasks_eq_spec (tasks : List Task) (nodes : List Node)
    (t : Int) (alpha beta : ℚ) :
    schedule_tasks tasks nodes t alpha beta =
      schedule_tasks_spec tasks nodes t alpha beta := by
  show (sortedBy taskLe tasks).foldl (sched_step alpha beta t) ([], nodes) =
    (sortedBy taskLe tasks).foldl (sched_step_spec alpha beta t) ([], nodes)
  rw [show sched_step alpha beta t = sched_step_spec alpha beta t from
    funext fun acc => funext fun task => sched_step_eq_spec alpha beta t acc task]

theorem sched_single_fit (task : Task) (nodes : List Node) (alpha beta : ℚ)
    (hfit : ∃ nd ∈ nodes, task.required ≤ nd.available_capacity) :
    ∃ i chosen, chooseCand alpha beta (candidate_nodes task nodes) = some (i, chosen) ∧
      nodes[i]? = some chosen ∧ task.required ≤ chosen.available_capacity := by
  obtain ⟨nd, hnd, hle⟩ := hfit
  have hne : candidate_nodes task nodes ≠ [] := by
    obtain ⟨i, hi⟩ := List.mem_iff_getElem?.mp hnd
    intro hnil
    have hm : (i, nd) ∈ candidate_nodes task nodes :=
      List.mem_filter.mpr ⟨List.mem_enum_iff_getElem?.mpr hi, by simpa using hle⟩
    rw [hnil] at hm
    exact absurd hm (by simp)
  cases hc : chooseCand alpha beta (candidate_nodes task nodes) with
  | none => exact absurd ((chooseCand_none_iff _ _ _).mp hc) hne
  | some p =>
      obtain ⟨i, chosen⟩ := p
      obtain ⟨henum, hfitb⟩ := List.mem_filter.mp (chooseCand_mem hc)
      exact ⟨i, chosen, rfl, List.mem_enum_iff_getElem?.mp henum,
        of_decide_eq_true hfitb⟩

/-- C1: for every node and at every time step of the simulation, the node's
`current_load` equals the sum of `required` over the tasks in its `schedule`
and `current_load ≤ capacity`; both the scheduler's assignments and the
driver's release step preserve this predicate (`NodeOk` is the predicate
together with the generation fact that scheduled requirements are
nonnegative). -/
theorem c1_load_invariant :
    (∀ (nodes : List Node) (t : Int), (∀ nd ∈ nodes, NodeOk nd) →
      ∀ nd ∈ update_nodes nodes t, NodeOk nd) ∧
    (∀ (tasks : List Task) (nodes : List Node) (t : Int) (alpha beta : ℚ),
      (∀ nd ∈ nodes, NodeOk nd) → (∀ tk ∈ tasks, 0 ≤ tk.required) →
      ∀ nd ∈ (schedule_tasks tasks nodes t alpha beta).2, NodeOk nd) ∧
    (∀ (nodes0 : List Node) (tasks0 : List Task), InitOK nodes0 tasks0 →
      ∀ n, ∀ nd ∈ (runSim (initState nodes0 tasks0) n).nodes, NodeInv nd) := by
  refine ⟨?_, ?_, ?_⟩
  · intro nodes t h
    exact update_nodes_ok h
  · intro tasks nodes t alpha beta hnodes htasks
    obtain ⟨L2, newTks, h1, h2, h3, h4, h5, h6, h7, h8⟩ :=
      sched_fold alpha beta t (sortedBy taskLe tasks) [] nodes hnodes
        (fun tk htk => htasks tk (mem_sortedBy.mp htk))
    intro nd hnd
    exact h5 nd hnd
  · intro nodes0 tasks0 h n nd hnd
    exact ((simInv_run h n).2.2.1 nd hnd).1

/-- Witness for C1: the reachable-state invariant evaluated on a concrete
one-node, zero-task simulation. -/
theorem c1_witness : NodeInv demoNode :=
  c1_load_invariant.2.2 [demoNode] [] (by decide) 0 demoNode (by decide)

/-- C2: in every reachable simulation state, every ledger task has its three
assignment fields all unset or all set consistently
(`end_time = start_time + processing_time`); task ids never occur twice
across the node schedules (so no task sits in two schedules); and once a
task is assigned its ledger entry never changes again. -/
theorem c2_assignment_once :
    ∀ (nodes0 : List Node) (tasks0 : List Task), InitOK nodes0 tasks0 →
    ∀ n,
      (∀ tk ∈ (runSim (initState nodes0 tasks0) n).tasks_queue, TaskConsistent tk) ∧
      ((allScheduled (runSim (initState nodes0 tasks0) n).nodes).map Task.task_id).Nodup ∧
      (∀ tk ∈ (runSim (initState nodes0 tasks0) n).tasks_queue,
        tk.start_time ≠ none →
        ∀ m, tk ∈ (runSim (initState nodes0 tasks0) (n + m)).tasks_queue) := by
  intro nodes0 tasks0 h n
  refine ⟨?_, (simInv_run h n).2.2.2.2, ?_⟩
  · intro tk htk
    exact ((simInv_run h n).2.1 tk htk).2.1
  · intro tk htk hne m
    exact run_persist h n m tk htk hne

/-- Witness for C2: the schedule-id uniqueness evaluated on a concrete
one-node, zero-task simulation. -/
theorem c2_witness :
    ((allScheduled (runSim (initState [demoNode] []) 0).nodes).map Task.task_id).Nodup :=
  (c2_assignment_once [demoNode] [] (by decide) 0).2.1

/-- C3: the pending set at time `t` is exactly the ledger tasks with
`start_time` unset and `deadline ≥ t`; consequently no reachable state holds
a task assigned with a start time past its deadline, while assignment at
`current_time = deadline` does occur (task `demoB` is assigned exactly at
its deadline). -/
theorem c3_no_late_assignment :
    (∀ (tasks : List Task) (t : Int) (tk : Task),
      tk ∈ pendingOf tasks t ↔
        tk ∈ tasks ∧ tk.start_time = none ∧ tk.deadline ≥ t) ∧
    (∀ (nodes0 : List Node) (tasks0 : List Task), InitOK nodes0 tasks0 →
      ∀ n, ∀ tk ∈ (runSim (initState nodes0 tasks0) n).tasks_queue,
        ∀ v, tk.start_time = some v → v ≤ tk.deadline) ∧
    ((runSim demoInit 6).tasks_queue = [demoAFinal, demoBFinal] ∧
      demoBFinal.start_time = some demoBFinal.deadline) := by
  refine ⟨?_, ?_, ?_, ?_⟩
  · intro tasks t tk
    exact mem_pendingOf
  · intro nodes0 tasks0 h n tk htk v hv
    exact run_start_le h n tk htk v hv
  · decide
  · decide

/-- Witness for C3: the start-time bound evaluated at the concrete run where
task `demoB` starts exactly at its deadline. -/
theorem c3_witness : (5 : Int) ≤ demoBFinal.deadline :=
  c3_no_late_assignment.2.1 [demoNode] [demoA, demoB] (by decide) 6 demoBFinal
    (by decide) 5 (by decide)

/-- C6: after every step the driver sets
`beta = 0.5 + 0.1 * (avg_load / 50)` computed from the node loads after the
step, `alpha` stays `1.0` for the whole run, `beta` starts at `0.5`, and for
loads `[10, 20, 30]` the updated `beta` is `0.54` (policy weights are
modelled as exact rationals). -/
theorem c6_beta_update :
    (∀ s : SimState, (simStep s).beta = betaUpdate (simStep s).nodes) ∧
    (∀ nodes : List Node, betaUpdate nodes = 0.5 + 0.1 * (avg_load nodes / 50)) ∧
    (∀ s : SimState, (simStep s).alpha = s.alpha) ∧
    (∀ (nodes0 : List Node) (tasks0 : List Task) (n : Nat),
      (runSim (initState nodes0 tasks0) n).alpha = 1) ∧
    (∀ (nodes0 : List Node) (tasks0 : List Task),
      (initState nodes0 tasks0).beta = 0.5) ∧
    betaUpdate [⟨0, 60, 10, []⟩, ⟨1, 60, 20, []⟩, ⟨2, 60, 30, []⟩] = 0.54 := by
  refine ⟨fun s => simStep_beta s, fun nodes => rfl, fun s => simStep_alpha s,
    ?_, fun nodes0 tasks0 => rfl, ?_⟩
  · intro nodes0 tasks0 n
    induction n with
    | zero => norm_num [runSim, initState]
    | succ k ih => rw [runSim_succ, simStep_alpha, ih]
  · simp [betaUpdate, avg_load]
    norm_num

/-- C7: running the release step twice at the same time equals running it
once, and a task that is finished at time `t` is never present in a node's
schedule after the release step at `t`. -/
theorem c7_release_idempotent :
    (∀ (nodes : List Node) (t : Int),
      update_nodes (update_nodes nodes t) t = update_nodes nodes t) ∧
    (∀ (nd : Node) (t : Int) (tk : Task), taskFinished tk t = true →
      tk ∉ (update_node nd t).schedule) :=
  ⟨update_nodes_idem, fun _ _ _ h => not_mem_update_node h⟩

/-- Witness for C7: a finished concrete task is absent from the concrete
node's schedule after release. -/
theorem c7_witness : demoAFinal ∉ (update_node demoNode 5).schedule :=
  c7_release_idempotent.2 demoNode 5 demoAFinal (by decide)

/-- C4: the scheduler sorts pending tasks by ascending deadline with a
stable sort (sortedness and stability stated as the first two conjuncts);
the candidate set is exactly the nodes with enough available capacity; when
it is empty the task is skipped, and otherwise the chosen candidate is a
maximum-score candidate, ties resolved to the first such candidate in list
order (the code's sort-then-head selection equals the spec's first-argmax
selection: last conjunct). -/
theorem c4_scheduler_algorithm :
    (∀ l : List Task,
      (sortedBy taskLe l).Pairwise (fun a b : Task => a.deadline ≤ b.deadline)) ∧
    (∀ (l : List Task) (d : Int),
      (sortedBy taskLe l).filter (fun tk => decide (tk.deadline = d)) =
        l.filter (fun tk => decide (tk.deadline = d))) ∧
    (∀ (task : Task) (nds : List Node) (p : Nat × Node),
      p ∈ candidate_nodes task nds ↔
        p ∈ nds.enum ∧ task.required ≤ p.2.available_capacity) ∧
    (∀ (alpha beta : ℚ) (cands : List (Nat × Node)),
      chooseCand alpha beta cands = none ↔ cands = []) ∧
    (∀ (alpha beta : ℚ) (cands : List (Nat × Node)) (p : Nat × Node),
      chooseCand alpha beta cands = some p →
        p ∈ cands ∧
        (∀ q ∈ cands, nodeScore alpha beta q.2 ≤ nodeScore alpha beta p.2) ∧
        ∃ l1 l2, cands = l1 ++ p :: l2 ∧
          ∀ q ∈ l1, nodeScore alpha beta q.2 < nodeScore alpha beta p.2) ∧
    (∀ (tasks : List Task) (nodes : List Node) (t : Int) (alpha beta : ℚ),
      schedule_tasks tasks nodes t alpha beta =
        schedule_tasks_spec tasks nodes t alpha beta) := by
  refine ⟨sortedBy_pairwise_deadline, fun l d => sortedBy_filter_deadline d l,
    ?_, fun alpha beta cands => chooseCand_none_iff alpha beta cands, ?_,
    schedule_tasks_eq_spec⟩
  · intro task nds p
    simp [candidate_nodes, List.mem_filter]
  · intro alpha beta cands p hc
    rw [chooseCand_eq_firstMaxBy] at hc
    refine ⟨firstMaxBy_mem hc, ?_, ?_⟩
    · intro q hq
      exact firstMaxBy_le hc q hq
    · obtain ⟨l1, l2, hsplit, hall⟩ := firstMaxBy_first hc
      exact ⟨l1, l2, hsplit, fun q hq => hall q hq⟩

/-- Witness for C4: the candidate-selection characterization evaluated on a
one-candidate list. -/
theorem c4_witness :
    ((0, demoNode) ∈ [((0 : Nat), demoNode)] ∧
      (∀ q ∈ [((0 : Nat), demoNode)],
        nodeScore 1 (1/2) q.2 ≤ nodeScore 1 (1/2) ((0 : Nat), demoNode).2) ∧
      ∃ l1 l2, [((0 : Nat), demoNode)] = l1 ++ ((0 : Nat), demoNode) :: l2 ∧
        ∀ q ∈ l1, nodeScore 1 (1/2) q.2 < nodeScore 1 (1/2) ((0 : Nat), demoNode).2) :=
  c4_scheduler_algorithm.2.2.2.2.1 1 (1/2) [((0 : Nat), demoNode)]
    ((0 : Nat), demoNode) rfl

/-- C5: within a single scheduler call on two pending tasks with
`A.deadline < B.deadline`, if A fits on some node but no placement of A
leaves room for B anywhere, then A ends the call assigned and B ends it
unassigned — the assignment of A consumes the capacity seen by B in the
same call. -/
theorem c5_edf_priority :
    ∀ (A B : Task) (nodes : List Node) (t : Int) (alpha beta : ℚ),
      A.deadline < B.deadline →
      B.assigned_node = none →
      (∃ nd ∈ nodes, A.required ≤ nd.available_capacity) →
      (∀ p ∈ nodes.enum, A.required ≤ p.2.available_capacity →
        ∀ q ∈ nodes.enum,
          ¬ (B.required ≤ if q.1 = p.1 then q.2.available_capacity - A.required
              else q.2.available_capacity)) →
      ∃ nid, (schedule_tasks [A, B] nodes t alpha beta).1 =
          [assignTask A t nid, B] ∧
        (assignTask A t nid).assigned_node = some nid ∧
        B.assigned_node = none := by
  intro A B nodes t alpha beta hAB hBun hAfits honly
  obtain ⟨i, chosen, hc, hget, hfit⟩ := sched_single_fit A nodes alpha beta hAfits
  have hilen : i < nodes.length := (List.getElem?_eq_some.mp hget).1
  refine ⟨chosen.node_id, ?_, rfl, hBun⟩
  have hsort : sortedBy taskLe [A, B] = [A, B] := by
    simp [sortedBy, insertLe, taskLe, le_of_lt hAB]
  show ((sortedBy taskLe [A, B]).foldl (sched_step alpha beta t) ([], nodes)).1 = _
  rw [hsort]
  have hstep1 : sched_step alpha beta t ([], nodes) A =
      ([assignTask A t chosen.node_id],
       nodes.set i
         { chosen with
             schedule := chosen.schedule ++ [assignTask A t chosen.node_id]
             current_load := chosen.current_load + A.required }) := by
    simp [sched_step, hc]
  have hcand2 : candidate_nodes B (nodes.set i
      { chosen with
          schedule := chosen.schedule ++ [assignTask A t chosen.node_id]
          current_load := chosen.current_load + A.required }) = [] := by
    apply List.filter_eq_nil_iff.mpr
    intro q hq
    have hq' := List.mem_enum_iff_getElem?.mp hq
    rw [List.getElem?_set] at hq'
    simp only [decide_eq_true_eq]
    by_cases hji : i = q.1
    · rw [if_pos hji, if_pos hilen] at hq'
      have hq2 : q.2 = { chosen with
          schedule := chosen.schedule ++ [assignTask A t chosen.node_id]
          current_load := chosen.current_load + A.required } :=
        (Option.some.inj hq').symm
      have h2 := honly (i, chosen) (List.mem_enum_iff_getElem?.mpr hget) hfit
        (i, chosen) (List.mem_enum_iff_getElem?.mpr hget)
      rw [if_pos rfl] at h2
      have h2' : ¬ (B.required ≤ chosen.available_capacity - A.required) := h2
      rw [hq2]
      intro hle
      have hle' : B.required ≤ chosen.capacity - (chosen.current_load + A.required) := hle
      apply h2'
      unfold Node.available_capacity
      omega
    · rw [if_neg hji] at hq'
      have hqe : q ∈ nodes.enum := List.mem_enum_iff_getElem?.mpr hq'
      have h2 := honly (i, chosen) (List.mem_enum_iff_getElem?.mpr hget) hfit q hqe
      rw [if_neg (fun hcon => hji hcon.symm)] at h2
      exact h2
  have hstep2 : sched_step alpha beta t
      ([assignTask A t chosen.node_id],
       nodes.set i
         { chosen with
             schedule := chosen.schedule ++ [assignTask A t chosen.node_id]
             current_load := chosen.current_load + A.required }) B =
      ([assignTask A t chosen.node_id, B],
       nodes.set i
         { chosen with
             schedule := chosen.schedule ++ [assignTask A t chosen.node_id]
             current_load := chosen.current_load + A.required }) := by
    simp [sched_step, hcand2, chooseCand, sortedBy]
  rw [List.foldl_cons, hstep1, List.foldl_cons, hstep2, List.foldl_nil]

/-- Witness for C5: two concrete tasks of requirement 30 on one node of
capacity 50 — the earlier-deadline task is assigned, the later one is not. -/
theorem c5_witness :
    ∃ nid, (schedule_tasks [⟨0, 30, 1, 1, none, none, none⟩,
        ⟨1, 30, 2, 1, none, none, none⟩] [demoNode] 0 1 (1/2)).1 =
      [assignTask ⟨0, 30, 1, 1, none, none, none⟩ 0 nid,
       ⟨1, 30, 2, 1, none, none, none⟩] ∧
      (assignTask ⟨0, 30, 1, 1, none, none, none⟩ 0 nid).assigned_node = some nid ∧
      (⟨1, 30, 2, 1, none, none, none⟩ : Task).assigned_node = none :=
  c5_edf_priority ⟨0, 30, 1, 1, none, none, none⟩ ⟨1, 30, 2, 1, none, none, none⟩
    [demoNode] 0 1 (1/2) (by decide) (by decide) (by decide) (by decide)

/-- C8: a task whose requirement exceeds every node's capacity is never
assigned in any reachable state (its ledger entry keeps all assignment
fields unset and its id never appears in any node's schedule), and when
every task is like that, every node ends every step with zero load and an
empty schedule. -/
theorem c8_unschedulable :
    (∀ (nodes0 : List Node) (tasks0 : List Task), InitOK nodes0 tasks0 →
      ∀ tk ∈ tasks0, (∀ nd ∈ nodes0, nd.capacity < tk.required) →
      ∀ n, tk ∈ (runSim (initState nodes0 tasks0) n).tasks_queue ∧
        tk.assigned_node = none ∧ tk.start_time = none ∧
        (∀ tk2 ∈ allScheduled (runSim (initState nodes0 tasks0) n).nodes,
          tk2.task_id ≠ tk.task_id)) ∧
    (∀ (nodes0 : List Node) (tasks0 : List Task), InitOK nodes0 tasks0 →
      (∀ tk ∈ tasks0, ∀ nd ∈ nodes0, nd.capacity < tk.required) →
      ∀ n, ∀ nd ∈ (runSim (initState nodes0 tasks0) n).nodes,
        nd.current_load = 0 ∧ nd.schedule = []) := by
  refine ⟨?_, ?_⟩
  · intro nodes0 tasks0 h tk htk hcap n
    have hcap2 : ∀ c ∈ nodes0.map Node.capacity, c < tk.required := by
      intro c hc
      obtain ⟨nd, hnd, rfl⟩ := List.mem_map.mp hc
      exact hcap nd hnd
    have hmem := run_unassignable h htk hcap2 n
    obtain ⟨-, hassigned, hstart, -⟩ := h.2.1 tk htk
    exact ⟨hmem, hassigned, hstart,
      id_not_scheduled (simInv_run h n) hmem hstart⟩
  · intro nodes0 tasks0 h hcap n nd hnd
    rw [(run_allUnfit h hcap n).1] at hnd
    exact ⟨(h.1 nd hnd).1, (h.1 nd hnd).2.1⟩

/-- Witness for C8: one node of capacity 10 and one task of requirement 20
(the spec's scenario), after three steps. -/
theorem c8_witness :
    ((⟨0, 20, 5, 1, none, none, none⟩ : Task) ∈
      (runSim (initState [⟨0, 10, 0, []⟩]
        [⟨0, 20, 5, 1, none, none, none⟩]) 3).tasks_queue) ∧
    ((⟨0, 10, 0, []⟩ : Node).current_load = 0 ∧
      (⟨0, 10, 0, []⟩ : Node).schedule = []) := by
  refine ⟨?_, ?_⟩
  · exact (c8_unschedulable.1 [⟨0, 10, 0, []⟩] [⟨0, 20, 5, 1, none, none, none⟩]
      (by decide) ⟨0, 20, 5, 1, none, none, none⟩ (by decide) (by decide) 3).1
  · exact c8_unschedulable.2 [⟨0, 10, 0, []⟩] [⟨0, 20, 5, 1, none, none, none⟩]
      (by decide) (by decide) 3 ⟨0, 10, 0, []⟩ (by decide)

/-- C9 (counterexample to the claim as stated): there is NO simulation run
from a well-formed initial state in which a task ends up assigned with
`start_time > deadline` — the pending filter `deadline >= current_time`
rules it out. -/
theorem c9_counterexample : ¬ ExistsLateStart := by
  rintro ⟨nodes0, tasks0, n, tk, v, hInit, hmem, hstart, hlt⟩
  have := run_start_le hInit n tk hmem v hstart
  omega

/-- C9 (amended): `start_time ≤ deadline` holds for every assigned task in
every run; the inequality is not strict — a run exists in which a task is
assigned exactly at its deadline (`demoB` starts at time 5 = its
deadline). -/
theorem c9_start_le_deadline :
    (∀ (nodes0 : List Node) (tasks0 : List Task), InitOK nodes0 tasks0 →
      ∀ n, ∀ tk ∈ (runSim (initState nodes0 tasks0) n).tasks_queue,
        ∀ v, tk.start_time = some v → v ≤ tk.deadline) ∧
    (demoBFinal ∈ (runSim demoInit 6).tasks_queue ∧
      demoBFinal.start_time = some demoBFinal.deadline) := by
  refine ⟨?_, by decide, by decide⟩
  intro nodes0 tasks0 h n tk htk v hv
  exact run_start_le h n tk htk v hv

/-- Witness for C9's amended theorem: the bound evaluated at the concrete
run's task A (assigned at time 0, deadline 5). -/
theorem c9_witness : (0 : Int) ≤ demoAFinal.deadline :=
  c9_start_le_deadline.1 [demoNode] [demoA, demoB] (by decide) 6 demoAFinal
    (by decide) 0 (by decide)

/-- C10: the deadline gates only the start of a task: whenever some node
has enough capacity the scheduler assigns the task with
`end_time = current_time + processing_time`, with no check that the task
completes by its deadline; concretely, in the demo run task B is assigned
at its deadline 5 with `end_time = 10 > 5` and still occupies its node's
capacity at `current_time = 6 > deadline`. -/
theorem c10_end_time_after_deadline :
    (∀ (task : Task) (nodes : List Node) (t : Int) (alpha beta : ℚ),
      (∃ nd ∈ nodes, task.required ≤ nd.available_capacity) →
      ∃ nid, (schedule_tasks [task] nodes t alpha beta).1 =
          [assignTask task t nid] ∧
        (assignTask task t nid).end_time = some (t + task.processing_time)) ∧
    ((runSim demoInit 6).nodes =
        [{ node_id := 0, capacity := 50, current_load := 30,
           schedule := [demoBFinal] }] ∧
      (runSim demoInit 6).current_time = 6 ∧
      demoBFinal.end_time = some 10 ∧ demoBFinal.deadline = 5) := by
  refine ⟨?_, by decide, by decide, by decide, by decide⟩
  intro task nodes t alpha beta hfit
  obtain ⟨i, chosen, hc, hget, hfit2⟩ := sched_single_fit task nodes alpha beta hfit
  refine ⟨chosen.node_id, ?_, rfl⟩
  show ((sortedBy taskLe [task]).foldl (sched_step alpha beta t) ([], nodes)).1 = _
  rw [show sortedBy taskLe [task] = [task] from rfl, List.foldl_cons, List.foldl_nil]
  simp [sched_step, hc]

/-- Witness for C10: the no-completion-check conjunct applied to the demo
task on the demo node. -/
theorem c10_witness :
    ∃ nid, (schedule_tasks [demoA] [demoNode] 0 1 (1/2)).1 =
        [assignTask demoA 0 nid] ∧
      (assignTask demoA 0 nid).end_time = some (0 + demoA.processing_time) :=
  c10_end_time_after_deadline.1 demoA [demoNode] 0 1 (1/2) (by decide)

end MetaSched
